import Mathlib

/-!
Verification of the engine-schematic adjacency core
(`src/engine-schematic-part-numbers/src/lib.rs` and `src/vertex.rs`).

Grid cells are addressed as `(x, y) : Nat × Nat` (column, row), matching
`Point { x, y }` in the source.  `Vec<u32>` results whose order comes from
`HashMap` iteration are modelled as multisets, since that order is
unspecified (and the spec guarantees no order).
-/

namespace Schematic

/-- Embeds `enum Data { Number(u32), Symbol(char) }`.  The `u32` payload is a
`Nat`; every constructed `Number` carries a value below `2^32` because the
Rust side obtains it from a successful `u32` parse. -/
inductive Data where
  | Number : Nat → Data
  | Symbol : Char → Data
deriving DecidableEq

/-- `true` exactly on `Data::Number(_)`, as tested by
`matches!(v.data, Data::Number(_))`. -/
def Data.isNum : Data → Bool
  | Data.Number _ => true
  | Data.Symbol _ => false

/-- `true` exactly on `Data::Symbol(_)`, as tested by
`matches!(v.data, Data::Symbol(_))`. -/
def Data.isSym : Data → Bool
  | Data.Number _ => false
  | Data.Symbol _ => true

/-- Embeds the closure `if let Data::Number(num) = n.data { num } else { 0 }`
used by `gear_ratios` to read a neighbor's value. -/
def Data.value : Data → Nat
  | Data.Number n => n
  | Data.Symbol _ => 0

/-- Embeds `struct Vertex { data, y, min_x, max_x }` from `vertex.rs`.
Coordinates are `usize` in the source, embedded as `Nat`. -/
structure Vertex where
  data : Data
  y : Nat
  min_x : Nat
  max_x : Nat
deriving DecidableEq

/-- Fuel-driven digit counter; with fuel at least `n` it computes the number
of decimal digits of `n` (structural recursion so that the kernel can
evaluate it). -/
def digitCountAux : Nat → Nat → Nat
  | 0, _ => 1
  | fuel + 1, n => if n < 10 then 1 else digitCountAux fuel (n / 10) + 1

/-- Number of decimal digits of `n`, i.e. the length of `format!("{n}")`
computed by `Vertex::number` (so `digitCount 0 = 1`). -/
def digitCount (n : Nat) : Nat :=
  digitCountAux n n

/-- Embeds `Vertex::number(number, y, min_x)`: `max_x` is
`min_x + format!("{number}").len() - 1`. -/
def Vertex.number (n y min_x : Nat) : Vertex :=
  { data := Data.Number n, y := y, min_x := min_x,
    max_x := min_x + digitCount n - 1 }

/-- Embeds `Vertex::symbol(symbol, y, min_x)`: a symbol occupies one cell. -/
def Vertex.symbol (c : Char) (y min_x : Nat) : Vertex :=
  { data := Data.Symbol c, y := y, min_x := min_x, max_x := min_x }

/-- Embeds `Vertex::adjacent_points` (the "halo").  The source clamps
`y - 1` and `min_x - 1` at zero via `checked_sub`; truncated `Nat`
subtraction does exactly that. -/
def Vertex.adjacentPoints (v : Vertex) : Finset (Nat × Nat) :=
  Finset.Icc (v.min_x - 1) (v.max_x + 1) ×ˢ Finset.Icc (v.y - 1) (v.y + 1)

/-- Embeds `Vertex::occupied_points`: the cells `(min_x..=max_x) × {y}`. -/
def Vertex.occupiedPoints (v : Vertex) : Finset (Nat × Nat) :=
  Finset.Icc v.min_x v.max_x ×ˢ ({v.y} : Finset Nat)

/-- Embeds `Vertex::is_adjacent_to`: the halo of `self` meets the occupied
cells of `other` (`!my_ap.is_disjoint(&other_ap)`). -/
def Vertex.is_adjacent_to (a b : Vertex) : Bool :=
  decide (a.adjacentPoints ∩ b.occupiedPoints).Nonempty

/-- Value of a decimal digit string, folding left exactly like `u32` parsing
accumulates (`acc * 10 + digit`). -/
def digitsVal (cs : List Char) : Nat :=
  cs.foldl (fun acc c => acc * 10 + (c.toNat - Char.toNat '0')) 0

/-- Digit-string part of `u32` parsing: succeeds iff the string is a
nonempty all-digit string whose value fits in `u32` (otherwise `Err`,
e.g. on overflow). -/
def rustParseDigits (ds : List Char) : Option Nat :=
  if ds ≠ [] ∧ (∀ c ∈ ds, c.isDigit) ∧ digitsVal ds < 2 ^ 32 then
    some (digitsVal ds)
  else
    none

/-- Embeds `str::parse::<u32>` on a match slice: optionally skips one
leading `'+'`, then parses the remaining digit string. -/
def rustParseU32 (cs : List Char) : Option Nat :=
  if cs.head? = some '+' then rustParseDigits cs.tail else rustParseDigits cs

/-- Fuel-driven scanner behind `lineTokens`; with fuel at least the length
of the remaining input it produces the regex matches (structural recursion
so that the kernel can evaluate it). -/
def lineTokensAux : Nat → List Char → Nat → List (Nat × List Char)
  | 0, _, _ => []
  | _, [], _ => []
  | fuel + 1, c :: rest, i =>
    if c = '.' then lineTokensAux fuel rest (i + 1)
    else if c.isDigit then
      (i, c :: rest.takeWhile Char.isDigit) ::
        lineTokensAux fuel (rest.dropWhile Char.isDigit)
          (i + (c :: rest.takeWhile Char.isDigit).length)
    else
      (i, [c]) :: lineTokensAux fuel rest (i + 1)

/-- Embeds `Regex::new(r"(\d+)|([^.])").find_iter(line)`: the list of
matches as `(start column, matched characters)`, left to right, the first
column of the scan being `i`.  A maximal digit run is one match; any other
non-`.` character is a one-character match; `.` never matches. -/
def lineTokens (l : List Char) (i : Nat) : List (Nat × List Char) :=
  lineTokensAux l.length l i

/-- Embeds the body of the `for_each` in `analyze_line`: a match whose text
parses as `u32` becomes `Vertex::number`, otherwise `Vertex::symbol` of the
match's first character (`m.as_str().chars().next().unwrap()`; matches are
never empty, so the `headD` default is never used). -/
def tokVertex (y : Nat) (t : Nat × List Char) : Vertex :=
  match rustParseU32 t.2 with
  | some n => Vertex.number n y t.1
  | none => Vertex.symbol (t.2.headD ' ') y t.1

/-- Embeds `analyze_line(line, y)`. -/
def analyze_line (line : List Char) (y : Nat) : List Vertex :=
  (lineTokens line 0).map (tokVertex y)

/-- Modelled from the spec: the Entity Extractor contract of §4.1 / claim
C3, applied to one regex match.  A (nonempty) all-digit run of length `L`
starting at column `i` is a Number with value parsed from the run and span
`[i, i + L - 1]` (the run's start and end columns); any other match is a
Symbol at its column. -/
def specTokVertex (y : Nat) (t : Nat × List Char) : Vertex :=
  if t.2 ≠ [] ∧ ∀ c ∈ t.2, c.isDigit then
    { data := Data.Number (digitsVal t.2), y := y, min_x := t.1,
      max_x := t.1 + t.2.length - 1 }
  else
    Vertex.symbol (t.2.headD ' ') y t.1

/-- Modelled from the spec: the full Entity Extractor of §4.1 / claim C3. -/
def specAnalyze (line : List Char) (y : Nat) : List Vertex :=
  (lineTokens line 0).map (specTokVertex y)

/-- The entity sequence of row `y` of the grid (rows past the end are
empty, never consulted by the build). -/
def lineVerts (input : List (List Char)) (y : Nat) : List Vertex :=
  analyze_line (input.getD y []) y

/-- Embeds the within-row pass `iter.zip(with_offset)`: each entity against
its immediate successor, inserting both directions when adjacent. -/
def rowPassEdges : List Vertex → List (Vertex × Vertex)
  | [] => []
  | [_] => []
  | a :: b :: rest =>
    (if a.is_adjacent_to b then [(a, b), (b, a)] else []) ++
      rowPassEdges (b :: rest)

/-- Embeds the cross-row pass: every entity `v` of the current row against
every entity `lv` of the row above, inserting `lv → v` then `v → lv` when
`v.is_adjacent_to(lv)`. -/
def crossPassEdges (cur prev : List Vertex) : List (Vertex × Vertex) :=
  cur.flatMap fun v =>
    prev.flatMap fun lv =>
      if v.is_adjacent_to lv then [(lv, v), (v, lv)] else []

/-- Embeds `build_adjacency_list` as the list of directed edges it inserts:
for each row `y` the within-row pass, plus (when `y > 0`) the cross pass
against row `y - 1`.  The resulting `HashMap<Vertex, HashSet<Vertex>>` is
exactly determined by membership in this list (`mapKeys`, `adjSet`). -/
def build_adjacency_edges (input : List (List Char)) : List (Vertex × Vertex) :=
  (List.range input.length).flatMap fun y =>
    rowPassEdges (lineVerts input y) ++
      (if y = 0 then [] else crossPassEdges (lineVerts input y) (lineVerts input (y - 1)))

/-- The adjacency set of `v` in the map described by the directed edge list
`es` (the `HashSet` stored under key `v`). -/
def adjOf (es : List (Vertex × Vertex)) (v : Vertex) : Finset Vertex :=
  ((es.filter fun e => e.1 = v).map Prod.snd).toFinset

/-- The key set of the built `HashMap`: exactly the vertices that received
at least one inserted edge. -/
def mapKeys (input : List (List Char)) : Finset Vertex :=
  ((build_adjacency_edges input).map Prod.fst).toFinset

/-- `adj_list[v]` for the built map (empty when `v` is not a key). -/
def adjSet (input : List (List Char)) (v : Vertex) : Finset Vertex :=
  adjOf (build_adjacency_edges input) v

/-- All entities extracted from the grid, row by row. -/
def entitiesOfInput (input : List (List Char)) : List Vertex :=
  (List.range input.length).flatMap fun y => lineVerts input y

/-- Modelled from the spec (claim C4): the edges obtained by testing every
pair of distinct entities of the whole grid with the same adjacency test,
recording both directions when either orientation of the test fires. -/
def allPairsEdges (input : List (List Char)) : List (Vertex × Vertex) :=
  (entitiesOfInput input).flatMap fun a =>
    (entitiesOfInput input).flatMap fun b =>
      if a ≠ b ∧ (a.is_adjacent_to b ∨ b.is_adjacent_to a) then [(a, b)] else []

/-- Modelled from the spec (claim C4): adjacency sets of the all-pairs map. -/
def neighborsAll (input : List (List Char)) (v : Vertex) : Finset Vertex :=
  adjOf (allPairsEdges input) v

/-- The entry `part_numbers` emits for map key `v`: its value when `v` is a
Number whose adjacency set contains a Symbol (`adjacents.iter().any(...)`). -/
def pnContribution (input : List (List Char)) (v : Vertex) : Option Nat :=
  match v.data with
  | Data.Number n =>
    if ((adjSet input v).filter fun w => w.data.isSym).Nonempty then some n
    else none
  | Data.Symbol _ => none

/-- Embeds `part_numbers(input)`.  The `Vec<u32>` is modelled as the
multiset of entries, one per qualifying `HashMap` key. -/
def part_numbers (input : List (List Char)) : Multiset Nat :=
  Multiset.filterMap (pnContribution input) (mapKeys input).val

/-- The entry `gear_ratios` emits for map key `v`: when `v` is a Symbol
whose adjacency set has exactly two elements, all Numbers, the `u32`
(wrapping, hence `% 2^32`) product of the neighbors' values. -/
def gearContribution (input : List (List Char)) (v : Vertex) : Option Nat :=
  match v.data with
  | Data.Number _ => none
  | Data.Symbol _ =>
    if (adjSet input v).card = 2 ∧ ∀ w ∈ adjSet input v, w.data.isNum then
      some (((adjSet input v).prod fun w => w.data.value) % 2 ^ 32)
    else none

/-- Embeds `gear_ratios(input)` as the multiset of emitted products. -/
def gear_ratios (input : List (List Char)) : Multiset Nat :=
  Multiset.filterMap (gearContribution input) (mapKeys input).val

/-- Modelled from the spec (claim C2): include the value of every Number
entity whose adjacency set (all-pairs) contains at least one Symbol, each
entity occurrence independently. -/
def specPnContribution (input : List (List Char)) (v : Vertex) : Option Nat :=
  match v.data with
  | Data.Number n =>
    if ((neighborsAll input v).filter fun w => w.data.isSym).Nonempty then some n
    else none
  | Data.Symbol _ => none

/-- Modelled from the spec (claim C2): the part-numbers query over all
extracted entities. -/
def specPartNumbers (input : List (List Char)) : Multiset Nat :=
  Multiset.filterMap (specPnContribution input) (entitiesOfInput input : Multiset Vertex)

/-- Modelled from the spec (claim C1 as stated): a Symbol whose adjacency
set contains exactly two Number entities contributes the product of those
two numbers' values, regardless of any further Symbol neighbors. -/
def claimGearContribution (input : List (List Char)) (v : Vertex) : Option Nat :=
  match v.data with
  | Data.Number _ => none
  | Data.Symbol _ =>
    if ((neighborsAll input v).filter fun w => w.data.isNum).card = 2 then
      some ((((neighborsAll input v).filter fun w => w.data.isNum).prod
        fun w => w.data.value) % 2 ^ 32)
    else none

/-- Modelled from the spec (claim C1 as stated): the gear-ratio query. -/
def claimGearRatios (input : List (List Char)) : Multiset Nat :=
  Multiset.filterMap (claimGearContribution input) (entitiesOfInput input : Multiset Vertex)

/-- Modelled from the spec (claim C1 amended): a Symbol whose adjacency set
has exactly two elements, both Numbers, contributes their product. -/
def specGearContribution (input : List (List Char)) (v : Vertex) : Option Nat :=
  match v.data with
  | Data.Number _ => none
  | Data.Symbol _ =>
    if (neighborsAll input v).card = 2 ∧ ∀ w ∈ neighborsAll input v, w.data.isNum then
      some (((neighborsAll input v).prod fun w => w.data.value) % 2 ^ 32)
    else none

/-- Modelled from the spec (claim C1 amended): the gear-ratio query over
all extracted entities. -/
def specGearRatios (input : List (List Char)) : Multiset Nat :=
  Multiset.filterMap (specGearContribution input) (entitiesOfInput input : Multiset Vertex)

/-! ### Arithmetic of decimal digit counts and digit-string values -/

theorem digitCountAux_fuel (f₁ : Nat) : ∀ f₂ n, n ≤ f₁ → n ≤ f₂ →
    digitCountAux f₁ n = digitCountAux f₂ n := by
  induction f₁ with
  | zero =>
    intro f₂ n h1 _
    interval_cases n
    cases f₂ <;> simp [digitCountAux]
  | succ f ih =>
    intro f₂ n h1 h2
    cases f₂ with
    | zero =>
      interval_cases n
      simp [digitCountAux]
    | succ g =>
      simp only [digitCountAux]
      split
      · rfl
      · rename_i hn
        have hd : n / 10 ≤ f ∧ n / 10 ≤ g := by
          constructor <;> [skip; skip] <;>
            · have := Nat.div_le_self n 10
              omega
        rw [ih g (n / 10) hd.1 hd.2]

theorem digitCount_rec (n : Nat) :
    digitCount n = if n < 10 then 1 else digitCount (n / 10) + 1 := by
  unfold digitCount
  cases hn : n with
  | zero => simp [digitCountAux]
  | succ m =>
    simp only [digitCountAux]
    split
    · rfl
    · rename_i h
      have hle : (m + 1) / 10 ≤ m := by omega
      rw [digitCountAux_fuel m ((m + 1) / 10) ((m + 1) / 10) hle (Nat.le_refl _)]

theorem digitCount_pos (n : Nat) : 1 ≤ digitCount n := by
  rw [digitCount_rec]
  split <;> omega

theorem lt_pow_digitCount (n : Nat) : n < 10 ^ digitCount n := by
  induction n using Nat.strong_induction_on with
  | _ n ih =>
    rw [digitCount_rec]
    split
    · omega
    · rename_i h
      have hlt : n / 10 < n := Nat.div_lt_self (by omega) (by omega)
      have := ih (n / 10) hlt
      have h9 : n < 10 * (n / 10) + 10 := by omega
      calc n < 10 * (n / 10) + 10 := h9
        _ ≤ 10 * 10 ^ digitCount (n / 10) := by omega
        _ = 10 ^ (digitCount (n / 10) + 1) := by ring

theorem digitCount_le {n k : Nat} (hk : 1 ≤ k) (h : n < 10 ^ k) :
    digitCount n ≤ k := by
  induction k generalizing n with
  | zero => omega
  | succ k ih =>
    rw [digitCount_rec]
    split
    · omega
    · rename_i hn
      have hk1 : 1 ≤ k := by
        by_contra hk0
        have : k = 0 := by omega
        subst this
        simp at h
        omega
      have hdiv : n / 10 < 10 ^ k := by
        rw [Nat.div_lt_iff_lt_mul (by omega)]
        calc n < 10 ^ (k + 1) := h
          _ = 10 ^ k * 10 := by ring
      have := ih hk1 hdiv
      omega

theorem digitCount_eq_of_bounds : ∀ k n, 10 ^ k ≤ n → n < 10 ^ (k + 1) →
    digitCount n = k + 1 := by
  intro k
  induction k with
  | zero =>
    intro n h1 h2
    rw [digitCount_rec]
    simp at h1 h2
    simp [h2]
  | succ k ih =>
    intro n h1 h2
    have h10 : 10 ≤ n := by
      have : 10 ≤ 10 ^ (k + 1) := by
        calc 10 = 10 ^ 1 := (pow_one 10).symm
          _ ≤ 10 ^ (k + 1) := Nat.pow_le_pow_right (by omega) (by omega)
      omega
    rw [digitCount_rec]
    rw [if_neg (by omega)]
    have hlo : 10 ^ k ≤ n / 10 := by
      rw [Nat.le_div_iff_mul_le (by omega)]
      calc 10 ^ k * 10 = 10 ^ (k + 1) := by ring
        _ ≤ n := h1
    have hhi : n / 10 < 10 ^ (k + 1) := by
      rw [Nat.div_lt_iff_lt_mul (by omega)]
      calc n < 10 ^ (k + 2) := h2
        _ = 10 ^ (k + 1) * 10 := by ring
    rw [ih (n / 10) hlo hhi]

theorem digit_toNat_bounds {c : Char} (h : c.isDigit = true) :
    48 ≤ c.toNat ∧ c.toNat ≤ 57 := by
  simp [Char.isDigit] at h
  obtain ⟨h1, h2⟩ := h
  exact ⟨UInt32.le_toNat_of_le (by decide) h1, UInt32.toNat_le_of_le (by decide) h2⟩

theorem toNat_ne_of_ne_zeroChar {c : Char} (h : c ≠ '0') : c.toNat ≠ 48 := by
  intro hc
  apply h
  apply Char.ext
  have h2 : c.val.toNat = (('0' : Char).val).toNat := hc
  exact UInt32.toNat.inj h2

theorem digitsVal_foldl_lt {cs : List Char} (hd : ∀ c ∈ cs, c.isDigit) :
    ∀ acc, cs.foldl (fun acc c => acc * 10 + (c.toNat - Char.toNat '0')) acc <
      (acc + 1) * 10 ^ cs.length := by
  induction cs with
  | nil => intro acc; simp
  | cons c cs ih =>
    intro acc
    have hc := digit_toNat_bounds (hd c (by simp))
    have h9 : c.toNat - Char.toNat '0' ≤ 9 := by
      show c.toNat - 48 ≤ 9
      omega
    have ihc := ih (fun x hx => hd x (by simp [hx])) (acc * 10 + (c.toNat - Char.toNat '0'))
    simp only [List.foldl_cons, List.length_cons]
    calc List.foldl (fun acc c => acc * 10 + (c.toNat - Char.toNat '0'))
          (acc * 10 + (c.toNat - Char.toNat '0')) cs
        < (acc * 10 + (c.toNat - Char.toNat '0') + 1) * 10 ^ cs.length := ihc
      _ ≤ ((acc + 1) * 10) * 10 ^ cs.length := by
          apply Nat.mul_le_mul_right
          omega
      _ = (acc + 1) * 10 ^ (cs.length + 1) := by ring

theorem digitsVal_lt {cs : List Char} (hd : ∀ c ∈ cs, c.isDigit) :
    digitsVal cs < 10 ^ cs.length := by
  have := digitsVal_foldl_lt hd 0
  simpa [digitsVal] using this

theorem digitsVal_foldl_ge (cs : List Char) :
    ∀ acc, acc * 10 ^ cs.length ≤
      cs.foldl (fun acc c => acc * 10 + (c.toNat - Char.toNat '0')) acc := by
  induction cs with
  | nil => intro acc; simp
  | cons c cs ih =>
    intro acc
    simp only [List.foldl_cons, List.length_cons]
    calc acc * 10 ^ (cs.length + 1) = (acc * 10) * 10 ^ cs.length := by ring
      _ ≤ (acc * 10 + (c.toNat - Char.toNat '0')) * 10 ^ cs.length := by
          apply Nat.mul_le_mul_right
          omega
      _ ≤ List.foldl (fun acc c => acc * 10 + (c.toNat - Char.toNat '0'))
            (acc * 10 + (c.toNat - Char.toNat '0')) cs := ih _

theorem digitsVal_ge {c : Char} {cs : List Char} (hc : c.isDigit) (h0 : c ≠ '0') :
    10 ^ cs.length ≤ digitsVal (c :: cs) := by
  have hb := digit_toNat_bounds hc
  have hne := toNat_ne_of_ne_zeroChar h0
  have h1 : 1 ≤ c.toNat - Char.toNat '0' := by
    show 1 ≤ c.toNat - 48
    omega
  have := digitsVal_foldl_ge cs (c.toNat - Char.toNat '0')
  calc 10 ^ cs.length = 1 * 10 ^ cs.length := (one_mul _).symm
    _ ≤ (c.toNat - Char.toNat '0') * 10 ^ cs.length := by
        apply Nat.mul_le_mul_right
        exact h1
    _ ≤ digitsVal (c :: cs) := by
        simpa [digitsVal] using this

/-- A nonempty digit string with no leading zero (or of length one) has as
many characters as its value has decimal digits. -/
theorem digitCount_digitsVal {cs : List Char} (hne : cs ≠ [])
    (hd : ∀ c ∈ cs, c.isDigit) (h0 : cs.headD ' ' ≠ '0' ∨ cs.length = 1) :
    digitCount (digitsVal cs) = cs.length := by
  match cs, hne with
  | c :: cs', _ =>
    rcases h0 with h0 | h1
    · simp only [List.headD_cons] at h0
      have hlo : 10 ^ cs'.length ≤ digitsVal (c :: cs') :=
        digitsVal_ge (hd c (by simp)) h0
      have hhi : digitsVal (c :: cs') < 10 ^ (cs'.length + 1) := by
        have := digitsVal_lt hd
        simpa using this
      have := digitCount_eq_of_bounds cs'.length (digitsVal (c :: cs')) hlo hhi
      simp [this]
    · have : cs' = [] := by simpa using h1
      subst this
      have hhi : digitsVal [c] < 10 := by
        have := digitsVal_lt hd
        simpa using this
      rw [digitCount_rec, if_pos hhi]
      rfl

theorem digitCount_le_length {cs : List Char} (hne : cs ≠ [])
    (hd : ∀ c ∈ cs, c.isDigit) : digitCount (digitsVal cs) ≤ cs.length := by
  apply digitCount_le
  · cases cs with
    | nil => exact absurd rfl hne
    | cons c cs' => simp
  · exact digitsVal_lt hd

/-! ### Recurrence for the tokenizer -/

theorem lineTokensAux_fuel (f₁ : Nat) : ∀ f₂ l i, l.length ≤ f₁ → l.length ≤ f₂ →
    lineTokensAux f₁ l i = lineTokensAux f₂ l i := by
  induction f₁ with
  | zero =>
    intro f₂ l i h1 _
    have : l = [] := List.eq_nil_of_length_eq_zero (by omega)
    subst this
    cases f₂ <;> simp [lineTokensAux]
  | succ f ih =>
    intro f₂ l i h1 h2
    cases l with
    | nil => cases f₂ <;> simp [lineTokensAux]
    | cons c rest =>
      cases f₂ with
      | zero => simp at h2
      | succ g =>
        simp only [lineTokensAux]
        split
        · exact ih g rest (i + 1) (by simpa using h1) (by simpa using h2)
        · split
          · have hdw := (List.dropWhile_sublist (l := rest) Char.isDigit).length_le
            rw [ih g (rest.dropWhile Char.isDigit) _ (by simp at h1; omega) (by simp at h2; omega)]
          · rw [ih g rest (i + 1) (by simpa using h1) (by simpa using h2)]

theorem lineTokens_nil (i : Nat) : lineTokens [] i = [] := rfl

theorem lineTokens_cons (c : Char) (rest : List Char) (i : Nat) :
    lineTokens (c :: rest) i =
      if c = '.' then lineTokens rest (i + 1)
      else if c.isDigit then
        (i, c :: rest.takeWhile Char.isDigit) ::
          lineTokens (rest.dropWhile Char.isDigit)
            (i + (c :: rest.takeWhile Char.isDigit).length)
      else (i, [c]) :: lineTokens rest (i + 1) := by
  show lineTokensAux (rest.length + 1) (c :: rest) i = _
  simp only [lineTokensAux]
  have hdw := (List.dropWhile_sublist (l := rest) Char.isDigit).length_le
  split
  · exact lineTokensAux_fuel rest.length rest.length rest (i + 1) (Nat.le_refl _) (Nat.le_refl _)
  · split
    · rw [lineTokensAux_fuel rest.length (rest.dropWhile Char.isDigit).length
        (rest.dropWhile Char.isDigit) _ hdw (Nat.le_refl _)]
      rfl
    · rfl

/-! ### The geometric adjacency test -/

theorem mem_adjacentPoints (v : Vertex) (p : Nat × Nat) :
    p ∈ v.adjacentPoints ↔
      v.min_x - 1 ≤ p.1 ∧ p.1 ≤ v.max_x + 1 ∧ v.y - 1 ≤ p.2 ∧ p.2 ≤ v.y + 1 := by
  unfold Vertex.adjacentPoints
  rw [Finset.mem_product, Finset.mem_Icc, Finset.mem_Icc]
  omega

theorem mem_occupiedPoints (v : Vertex) (p : Nat × Nat) :
    p ∈ v.occupiedPoints ↔ v.min_x ≤ p.1 ∧ p.1 ≤ v.max_x ∧ p.2 = v.y := by
  unfold Vertex.occupiedPoints
  rw [Finset.mem_product, Finset.mem_Icc, Finset.mem_singleton]
  omega

/-- Arithmetic characterization of `is_adjacent_to`:  the halo column range
of `a` must be nonempty, `b` must occupy at least one cell, the rows must
differ by at most one, and the (clamped) column ranges must overlap. -/
theorem is_adjacent_iff (a b : Vertex) :
    a.is_adjacent_to b = true ↔
      a.min_x - 1 ≤ a.max_x + 1 ∧ b.min_x ≤ b.max_x ∧
      a.y ≤ b.y + 1 ∧ b.y ≤ a.y + 1 ∧
      a.min_x ≤ b.max_x + 1 ∧ b.min_x ≤ a.max_x + 1 := by
  unfold Vertex.is_adjacent_to
  rw [decide_eq_true_iff]
  constructor
  · rintro ⟨p, hp⟩
    rw [Finset.mem_inter] at hp
    obtain ⟨h1, h2⟩ := hp
    rw [mem_adjacentPoints] at h1
    rw [mem_occupiedPoints] at h2
    omega
  · rintro ⟨h0, h1, h2, h3, h4, h5⟩
    refine ⟨(max (a.min_x - 1) b.min_x, b.y), ?_⟩
    rw [Finset.mem_inter, mem_adjacentPoints, mem_occupiedPoints]
    dsimp only
    omega

/-- The geometric test is symmetric on well-formed vertices. -/
theorem is_adjacent_symm {a b : Vertex} (ha : a.min_x ≤ a.max_x)
    (hb : b.min_x ≤ b.max_x) : a.is_adjacent_to b = b.is_adjacent_to a := by
  rw [Bool.eq_iff_iff, is_adjacent_iff, is_adjacent_iff]
  omega

/-! ### Structure of the token list -/

theorem take_length_takeWhile (p : Char → Bool) (l : List Char) :
    l.take (l.takeWhile p).length = l.takeWhile p := by
  induction l with
  | nil => simp
  | cons a l ih =>
    by_cases h : p a
    · simp [List.takeWhile_cons, h, ih]
    · simp [List.takeWhile_cons, h]

/-- Every token is nonempty, starts at or after the scan origin, is the
slice of the line at its columns, and is either an all-digit run or a
single non-digit non-dot character. -/
theorem lineTokens_sound : ∀ (n : Nat) (l : List Char), l.length ≤ n →
    ∀ i t, t ∈ lineTokens l i →
      t.2 ≠ [] ∧ i ≤ t.1 ∧ (l.drop (t.1 - i)).take t.2.length = t.2 ∧
        ((∀ c ∈ t.2, c.isDigit) ∨
          (t.2.length = 1 ∧ ¬(t.2.headD ' ').isDigit ∧ t.2.headD ' ' ≠ '.')) := by
  intro n
  induction n with
  | zero =>
    intro l hl i t hmem
    have : l = [] := List.eq_nil_of_length_eq_zero (by omega)
    subst this
    simp [lineTokens_nil] at hmem
  | succ n ih =>
    intro l hl i t hmem
    cases l with
    | nil => simp [lineTokens_nil] at hmem
    | cons c rest =>
      have hrest : rest.length ≤ n := by simp at hl; omega
      rw [lineTokens_cons] at hmem
      by_cases hdot : c = '.'
      · rw [if_pos hdot] at hmem
        obtain ⟨h1, h2, h3, h4⟩ := ih rest hrest (i + 1) t hmem
        refine ⟨h1, by omega, ?_, h4⟩
        have hji : t.1 - i = (t.1 - (i + 1)) + 1 := by omega
        rw [hji, List.drop_succ_cons, h3]
      · rw [if_neg hdot] at hmem
        by_cases hdig : c.isDigit
        · rw [if_pos hdig] at hmem
          rcases List.mem_cons.mp hmem with heq | hmem'
          · subst heq
            dsimp only
            refine ⟨by simp, Nat.le_refl _, ?_, Or.inl ?_⟩
            · simp only [Nat.sub_self, List.drop_zero, List.length_cons,
                List.take_succ_cons]
              rw [take_length_takeWhile]
            · intro x hx
              rcases List.mem_cons.mp hx with rfl | hx'
              · exact hdig
              · exact List.mem_takeWhile_imp hx'
          · have hdw : (rest.dropWhile Char.isDigit).length ≤ n :=
              le_trans (List.dropWhile_sublist _).length_le hrest
            obtain ⟨h1, h2, h3, h4⟩ := ih _ hdw _ t hmem'
            set run := c :: rest.takeWhile Char.isDigit with hrun
            have hsplit : c :: rest = run ++ rest.dropWhile Char.isDigit := by
              simp [hrun]
            refine ⟨h1, by omega, ?_, h4⟩
            have hji : t.1 - i = run.length + (t.1 - (i + run.length)) := by
              omega
            rw [hsplit, hji, ← List.drop_drop, List.drop_left, h3]
        · rw [if_neg hdig] at hmem
          rcases List.mem_cons.mp hmem with heq | hmem'
          · subst heq
            dsimp only
            refine ⟨by simp, Nat.le_refl _, by simp, Or.inr ?_⟩
            refine ⟨rfl, ?_⟩
            simp only [List.headD_cons]
            exact ⟨hdig, hdot⟩
          · obtain ⟨h1, h2, h3, h4⟩ := ih rest hrest (i + 1) t hmem'
            refine ⟨h1, by omega, ?_, h4⟩
            have hji : t.1 - i = (t.1 - (i + 1)) + 1 := by omega
            rw [hji, List.drop_succ_cons, h3]

theorem lineTokens_sound' {l : List Char} {i : Nat} {t : Nat × List Char}
    (h : t ∈ lineTokens l i) :
    t.2 ≠ [] ∧ i ≤ t.1 ∧ (l.drop (t.1 - i)).take t.2.length = t.2 ∧
      ((∀ c ∈ t.2, c.isDigit) ∨
        (t.2.length = 1 ∧ ¬(t.2.headD ' ').isDigit ∧ t.2.headD ' ' ≠ '.')) :=
  lineTokens_sound l.length l (Nat.le_refl _) i t h

/-- Consecutive tokens are separated: the next token starts at or after the
end of the previous one. -/
theorem lineTokens_chain : ∀ (n : Nat) (l : List Char), l.length ≤ n → ∀ i,
    List.Chain' (fun s t : Nat × List Char => s.1 + s.2.length ≤ t.1)
      (lineTokens l i) := by
  intro n
  induction n with
  | zero =>
    intro l hl i
    have : l = [] := List.eq_nil_of_length_eq_zero (by omega)
    subst this
    simp [lineTokens_nil]
  | succ n ih =>
    intro l hl i
    cases l with
    | nil => simp [lineTokens_nil]
    | cons c rest =>
      have hrest : rest.length ≤ n := by simp at hl; omega
      rw [lineTokens_cons]
      by_cases hdot : c = '.'
      · rw [if_pos hdot]
        exact ih rest hrest (i + 1)
      · rw [if_neg hdot]
        by_cases hdig : c.isDigit
        · rw [if_pos hdig]
          have hdw : (rest.dropWhile Char.isDigit).length ≤ n :=
            le_trans (List.dropWhile_sublist _).length_le hrest
          rw [List.chain'_cons']
          refine ⟨?_, ih _ hdw _⟩
          intro t ht
          have hmem := List.mem_of_mem_head? ht
          have := (lineTokens_sound n _ hdw _ t hmem).2.1
          dsimp only
          omega
        · rw [if_neg hdig]
          rw [List.chain'_cons']
          refine ⟨?_, ih rest hrest (i + 1)⟩
          intro t ht
          have hmem := List.mem_of_mem_head? ht
          have := (lineTokens_sound n rest hrest _ t hmem).2.1
          show i + [c].length ≤ t.1
          have hone : ([c] : List Char).length = 1 := rfl
          omega

theorem lineTokens_chain' (l : List Char) (i : Nat) :
    List.Chain' (fun s t : Nat × List Char => s.1 + s.2.length ≤ t.1)
      (lineTokens l i) :=
  lineTokens_chain l.length l (Nat.le_refl _) i

/-! ### Parsing and `tokVertex` -/

theorem rustParseDigits_some {ds : List Char} {n : Nat}
    (h : rustParseDigits ds = some n) :
    ds ≠ [] ∧ (∀ c ∈ ds, c.isDigit) ∧ n = digitsVal ds ∧ digitsVal ds < 2 ^ 32 := by
  unfold rustParseDigits at h
  split at h
  · rename_i hc
    exact ⟨hc.1, hc.2.1, (Option.some.inj h).symm, hc.2.2⟩
  · simp at h

theorem rustParseU32_some {cs : List Char} {n : Nat}
    (h : rustParseU32 cs = some n) :
    ∃ ds, (ds = cs ∨ ds = cs.tail) ∧
      ds ≠ [] ∧ (∀ c ∈ ds, c.isDigit) ∧ n = digitsVal ds ∧ digitsVal ds < 2 ^ 32 := by
  unfold rustParseU32 at h
  split at h
  · exact ⟨cs.tail, Or.inr rfl, rustParseDigits_some h⟩
  · exact ⟨cs, Or.inl rfl, rustParseDigits_some h⟩

theorem rustParseU32_digits {cs : List Char} (hne : cs ≠ [])
    (hd : ∀ c ∈ cs, c.isDigit) :
    rustParseU32 cs =
      if digitsVal cs < 2 ^ 32 then some (digitsVal cs) else none := by
  have hhead : cs.head? ≠ some '+' := by
    cases cs with
    | nil => simp
    | cons c cs' =>
      simp only [List.head?_cons, ne_eq, Option.some.injEq]
      intro hc
      have hcd := hd c (by simp)
      rw [hc] at hcd
      simp at hcd
  unfold rustParseU32
  rw [if_neg hhead]
  unfold rustParseDigits
  by_cases hv : digitsVal cs < 2 ^ 32
  · rw [if_pos ⟨hne, hd, hv⟩, if_pos hv]
  · rw [if_neg (by tauto), if_neg hv]

theorem rustParseU32_single_nondigit {c : Char} (h : ¬c.isDigit) :
    rustParseU32 [c] = none := by
  by_cases hp : c = '+'
  · subst hp
    unfold rustParseU32
    simp [rustParseDigits]
  · unfold rustParseU32
    rw [if_neg (by simp [hp])]
    unfold rustParseDigits
    rw [if_neg]
    rintro ⟨-, h2, -⟩
    exact h (h2 c (by simp))

theorem tokVertex_min (y : Nat) (t : Nat × List Char) :
    (tokVertex y t).min_x = t.1 := by
  unfold tokVertex
  split <;> rfl

theorem tokVertex_y (y : Nat) (t : Nat × List Char) :
    (tokVertex y t).y = y := by
  unfold tokVertex
  split <;> rfl

theorem tokVertex_wf (y : Nat) (t : Nat × List Char) :
    (tokVertex y t).min_x ≤ (tokVertex y t).max_x := by
  unfold tokVertex
  cases hp : rustParseU32 t.2 with
  | some n =>
    show t.1 ≤ t.1 + digitCount n - 1
    have := digitCount_pos n
    omega
  | none => exact Nat.le_refl _

theorem tokVertex_max_le (y : Nat) {t : Nat × List Char} (hne : t.2 ≠ []) :
    (tokVertex y t).max_x ≤ t.1 + t.2.length - 1 := by
  have hlen : 1 ≤ t.2.length := List.length_pos.mpr hne
  unfold tokVertex
  cases hp : rustParseU32 t.2 with
  | none =>
    show t.1 ≤ t.1 + t.2.length - 1
    omega
  | some n =>
    show t.1 + digitCount n - 1 ≤ t.1 + t.2.length - 1
    obtain ⟨ds, hds, hne', hd, hn, -⟩ := rustParseU32_some hp
    have hdc : digitCount n ≤ ds.length := by
      rw [hn]
      exact digitCount_le_length hne' hd
    have hdsle : ds.length ≤ t.2.length := by
      rcases hds with rfl | rfl
      · exact Nat.le_refl _
      · cases t.2 <;> simp
    omega

/-! ### Structure of the entity list of one line -/

theorem analyze_line_y {line : List Char} {y : Nat} {v : Vertex}
    (h : v ∈ analyze_line line y) : v.y = y := by
  obtain ⟨t, -, rfl⟩ := List.mem_map.mp h
  exact tokVertex_y y t

theorem analyze_line_wf {line : List Char} {y : Nat} {v : Vertex}
    (h : v ∈ analyze_line line y) : v.min_x ≤ v.max_x := by
  obtain ⟨t, -, rfl⟩ := List.mem_map.mp h
  exact tokVertex_wf y t

theorem analyze_line_chain (line : List Char) (y : Nat) :
    List.Chain' (fun u v : Vertex => u.max_x < v.min_x) (analyze_line line y) := by
  unfold analyze_line
  rw [List.chain'_map]
  rw [List.chain'_iff_get]
  intro k hk
  have hc := List.chain'_iff_get.mp (lineTokens_chain' line 0) k hk
  set s := (lineTokens line 0).get ⟨k, by omega⟩ with hs
  set t := (lineTokens line 0).get ⟨k + 1, by omega⟩ with ht
  have hsmem : s ∈ lineTokens line 0 := List.get_mem _ _ _
  have hne := (lineTokens_sound' hsmem).1
  have h1 := tokVertex_max_le y hne
  have h2 := tokVertex_min y t
  have hlen : 1 ≤ s.2.length := List.length_pos.mpr hne
  omega

/-- In a list of well-formed vertices separated along columns, any earlier
vertex ends strictly before any later one starts. -/
theorem sep_get {l : List Vertex} (hw : ∀ v ∈ l, v.min_x ≤ v.max_x)
    (hc : List.Chain' (fun u v : Vertex => u.max_x < v.min_x) l) :
    ∀ i j (hi : i < l.length) (hj : j < l.length), i < j →
      (l.get ⟨i, hi⟩).max_x < (l.get ⟨j, hj⟩).min_x := by
  intro i j
  induction j generalizing i with
  | zero => omega
  | succ j ihj =>
    intro hi hj hij
    by_cases hij' : i = j
    · subst hij'
      exact List.chain'_iff_get.mp hc i (by omega)
    · have hj' : j < l.length := by omega
      have h1 := ihj i hi hj' (by omega)
      have h2 := List.chain'_iff_get.mp hc j (by omega)
      have h3 := hw (l.get ⟨j, hj'⟩) (List.get_mem _ _ _)
      omega

/-- Vertices at indices two or more apart are separated by at least two
columns, hence cannot be adjacent within a row. -/
theorem sep_get_gap {l : List Vertex} (hw : ∀ v ∈ l, v.min_x ≤ v.max_x)
    (hc : List.Chain' (fun u v : Vertex => u.max_x < v.min_x) l) :
    ∀ i j (hi : i < l.length) (hj : j < l.length), i + 2 ≤ j →
      (l.get ⟨i, hi⟩).max_x + 2 ≤ (l.get ⟨j, hj⟩).min_x := by
  intro i j hi hj h
  have hi1 : i + 1 < l.length := by omega
  have h1 := sep_get hw hc i (i + 1) hi hi1 (by omega)
  have h2 := sep_get hw hc (i + 1) j hi1 hj (by omega)
  have h3 := hw (l.get ⟨i + 1, hi1⟩) (List.get_mem _ _ _)
  omega

theorem nodup_of_sep {l : List Vertex} (hw : ∀ v ∈ l, v.min_x ≤ v.max_x)
    (hc : List.Chain' (fun u v : Vertex => u.max_x < v.min_x) l) :
    l.Nodup := by
  rw [List.Nodup, List.pairwise_iff_get]
  intro i j hij
  have h1 := sep_get hw hc i j i.isLt j.isLt hij
  simp only [Fin.eta] at h1
  have h2 := hw (l.get i) (List.get_mem _ _ _)
  intro heq
  rw [heq] at h1 h2
  omega

theorem analyze_line_nodup (line : List Char) (y : Nat) :
    (analyze_line line y).Nodup :=
  nodup_of_sep (fun _ h => analyze_line_wf h) (analyze_line_chain line y)

/-! ### Entities of the whole grid -/

theorem lineVerts_y {input : List (List Char)} {y : Nat} {v : Vertex}
    (h : v ∈ lineVerts input y) : v.y = y :=
  analyze_line_y h

theorem mem_entities {input : List (List Char)} {v : Vertex} :
    v ∈ entitiesOfInput input ↔
      ∃ y, y < input.length ∧ v ∈ lineVerts input y := by
  unfold entitiesOfInput
  simp [List.mem_flatMap, List.mem_range]

theorem entities_wf {input : List (List Char)} {v : Vertex}
    (h : v ∈ entitiesOfInput input) : v.min_x ≤ v.max_x := by
  obtain ⟨y, -, hv⟩ := mem_entities.mp h
  exact analyze_line_wf hv

theorem entities_nodup (input : List (List Char)) :
    (entitiesOfInput input).Nodup := by
  unfold entitiesOfInput
  rw [List.nodup_flatMap]
  constructor
  · intro y _
    exact analyze_line_nodup _ _
  · apply (List.pairwise_lt_range input.length).imp
    intro y1 y2 hlt
    intro v hv1 hv2
    have h1 := lineVerts_y hv1
    have h2 := lineVerts_y hv2
    omega

/-! ### Membership in the built edge list -/

theorem mem_adjOf {es : List (Vertex × Vertex)} {v w : Vertex} :
    w ∈ adjOf es v ↔ (v, w) ∈ es := by
  unfold adjOf
  simp only [List.mem_toFinset, List.mem_map, List.mem_filter,
    decide_eq_true_eq]
  constructor
  · rintro ⟨⟨x1, x2⟩, ⟨hmem, h1⟩, h2⟩
    dsimp only at h1 h2
    subst h1
    subst h2
    exact hmem
  · intro h
    exact ⟨(v, w), ⟨h, rfl⟩, rfl⟩

theorem rowPass_mem {l : List Vertex} {e : Vertex × Vertex} :
    e ∈ rowPassEdges l ↔
      ∃ (k : Nat) (a b : Vertex), l[k]? = some a ∧ l[k + 1]? = some b ∧
        a.is_adjacent_to b ∧ (e = (a, b) ∨ e = (b, a)) := by
  induction l using rowPassEdges.induct with
  | case1 =>
    simp [rowPassEdges]
  | case2 x =>
    simp only [rowPassEdges, List.not_mem_nil, false_iff]
    rintro ⟨k, a, b, -, h2, -⟩
    have := (List.getElem?_eq_some_iff.mp h2).1
    simp at this
  | case3 a b rest ih =>
    simp only [rowPassEdges, List.mem_append]
    constructor
    · intro h
      rcases h with h | h
      · by_cases hadj : a.is_adjacent_to b
        · rw [if_pos hadj] at h
          simp only [List.mem_cons, List.mem_singleton, List.not_mem_nil,
            or_false] at h
          exact ⟨0, a, b, by simp, by simp, hadj, h⟩
        · rw [if_neg hadj] at h
          simp at h
      · obtain ⟨k, a', b', h1, h2, h3, h4⟩ := ih.mp h
        exact ⟨k + 1, a', b', by simpa using h1, by simpa using h2, h3, h4⟩
    · rintro ⟨k, a', b', h1, h2, h3, h4⟩
      cases k with
      | zero =>
        simp only [List.getElem?_cons_zero, Option.some.injEq] at h1
        simp only [List.getElem?_cons_succ, List.getElem?_cons_zero,
          Option.some.injEq] at h2
        subst h1
        subst h2
        left
        rw [if_pos h3]
        simpa using h4
      | succ k =>
        right
        exact ih.mpr ⟨k, a', b', by simpa using h1, by simpa using h2, h3, h4⟩

theorem crossPass_mem {cur prev : List Vertex} {e : Vertex × Vertex} :
    e ∈ crossPassEdges cur prev ↔
      ∃ v ∈ cur, ∃ lv ∈ prev, v.is_adjacent_to lv ∧
        (e = (lv, v) ∨ e = (v, lv)) := by
  unfold crossPassEdges
  simp only [List.mem_flatMap]
  constructor
  · rintro ⟨v, hv, lv, hlv, he⟩
    by_cases hadj : v.is_adjacent_to lv
    · rw [if_pos hadj] at he
      simp only [List.mem_cons, List.mem_singleton, List.not_mem_nil,
        or_false] at he
      exact ⟨v, hv, lv, hlv, hadj, he⟩
    · rw [if_neg hadj] at he
      simp at he
  · rintro ⟨v, hv, lv, hlv, hadj, he⟩
    refine ⟨v, hv, lv, hlv, ?_⟩
    rw [if_pos hadj]
    simpa using he

theorem build_mem {input : List (List Char)} {e : Vertex × Vertex} :
    e ∈ build_adjacency_edges input ↔
      ∃ y, y < input.length ∧
        (e ∈ rowPassEdges (lineVerts input y) ∨
          (y ≠ 0 ∧
            e ∈ crossPassEdges (lineVerts input y) (lineVerts input (y - 1)))) := by
  unfold build_adjacency_edges
  simp only [List.mem_flatMap, List.mem_range, List.mem_append]
  constructor
  · rintro ⟨y, hy, h | h⟩
    · exact ⟨y, hy, Or.inl h⟩
    · by_cases hy0 : y = 0
      · subst hy0
        rw [if_pos rfl] at h
        simp at h
      · rw [if_neg hy0] at h
        exact ⟨y, hy, Or.inr ⟨hy0, h⟩⟩
  · rintro ⟨y, hy, h | ⟨hy0, h⟩⟩
    · exact ⟨y, hy, Or.inl h⟩
    · refine ⟨y, hy, Or.inr ?_⟩
      rw [if_neg hy0]
      exact h

theorem allPairs_mem {input : List (List Char)} {a b : Vertex} :
    (a, b) ∈ allPairsEdges input ↔
      a ∈ entitiesOfInput input ∧ b ∈ entitiesOfInput input ∧ a ≠ b ∧
        (a.is_adjacent_to b ∨ b.is_adjacent_to a) := by
  unfold allPairsEdges
  simp only [List.mem_flatMap]
  constructor
  · rintro ⟨x, hx, z, hz, he⟩
    split at he
    · rename_i hcond
      simp only [List.mem_singleton, Prod.mk.injEq] at he
      obtain ⟨rfl, rfl⟩ := he
      exact ⟨hx, hz, hcond.1, hcond.2⟩
    · simp at he
  · rintro ⟨h1, h2, h3, h4⟩
    refine ⟨a, h1, b, h2, ?_⟩
    rw [if_pos ⟨h3, h4⟩]
    simp

/-! ### Equivalence of the single-pass build with the all-pairs build -/

/-- Within one row's entity list, two distinct adjacent entities are
necessarily consecutive, so the single pass records their edge (in both
directions). -/
theorem same_row_edge {l : List Vertex} (hw : ∀ v ∈ l, v.min_x ≤ v.max_x)
    (hc : List.Chain' (fun u v : Vertex => u.max_x < v.min_x) l)
    {a b : Vertex} (ha : a ∈ l) (hb : b ∈ l) (hne : a ≠ b)
    (hadj : a.is_adjacent_to b ∨ b.is_adjacent_to a) :
    (a, b) ∈ rowPassEdges l ∧ (b, a) ∈ rowPassEdges l := by
  obtain ⟨⟨i, hi⟩, hia⟩ := List.mem_iff_get.mp ha
  obtain ⟨⟨j, hj⟩, hjb⟩ := List.mem_iff_get.mp hb
  have hwa : a.min_x ≤ a.max_x := hw a ha
  have hwb : b.min_x ≤ b.max_x := hw b hb
  have hbale : b.min_x ≤ a.max_x + 1 ∧ a.min_x ≤ b.max_x + 1 := by
    rcases hadj with h | h
    · have := (is_adjacent_iff _ _).mp h
      omega
    · have := (is_adjacent_iff _ _).mp h
      omega
  have hij : i ≠ j := by
    intro h
    subst h
    rw [hia] at hjb
    exact hne hjb
  rcases Nat.lt_or_ge i j with hlt | hge
  · rcases Nat.lt_or_ge j (i + 2) with hcons | hgap
    · have hj1 : j = i + 1 := by omega
      subst hj1
      have hadj' : a.is_adjacent_to b = true := by
        rcases hadj with h | h
        · exact h
        · rw [is_adjacent_symm hwa hwb]
          exact h
      have h1 : l[i]? = some a := by
        rw [List.getElem?_eq_some_iff]
        exact ⟨hi, hia⟩
      have h2 : l[i + 1]? = some b := by
        rw [List.getElem?_eq_some_iff]
        exact ⟨hj, hjb⟩
      constructor
      · exact rowPass_mem.mpr ⟨i, a, b, h1, h2, hadj', Or.inl rfl⟩
      · exact rowPass_mem.mpr ⟨i, a, b, h1, h2, hadj', Or.inr rfl⟩
    · exfalso
      have := sep_get_gap hw hc i j hi hj hgap
      rw [hia, hjb] at this
      omega
  · have hlt : j < i := by omega
    rcases Nat.lt_or_ge i (j + 2) with hcons | hgap
    · have hi1 : i = j + 1 := by omega
      subst hi1
      have hadj' : b.is_adjacent_to a = true := by
        rcases hadj with h | h
        · rw [is_adjacent_symm hwb hwa]
          exact h
        · exact h
      have h1 : l[j]? = some b := by
        rw [List.getElem?_eq_some_iff]
        exact ⟨hj, hjb⟩
      have h2 : l[j + 1]? = some a := by
        rw [List.getElem?_eq_some_iff]
        exact ⟨hi, hia⟩
      constructor
      · exact rowPass_mem.mpr ⟨j, b, a, h1, h2, hadj', Or.inr rfl⟩
      · exact rowPass_mem.mpr ⟨j, b, a, h1, h2, hadj', Or.inl rfl⟩
    · exfalso
      have := sep_get_gap hw hc j i hj hi hgap
      rw [hia, hjb] at this
      omega

theorem rowPass_sound {l : List Vertex} (hw : ∀ v ∈ l, v.min_x ≤ v.max_x)
    (hc : List.Chain' (fun u v : Vertex => u.max_x < v.min_x) l)
    {e : Vertex × Vertex} (h : e ∈ rowPassEdges l) :
    e.1 ∈ l ∧ e.2 ∈ l ∧ e.1 ≠ e.2 ∧
      (e.1.is_adjacent_to e.2 ∨ e.2.is_adjacent_to e.1) := by
  obtain ⟨k, a, b, h1, h2, hadj, he⟩ := rowPass_mem.mp h
  obtain ⟨hk, ha⟩ := List.getElem?_eq_some_iff.mp h1
  obtain ⟨hk1, hb⟩ := List.getElem?_eq_some_iff.mp h2
  have hamem : a ∈ l := by
    rw [← ha]
    exact List.getElem_mem _
  have hbmem : b ∈ l := by
    rw [← hb]
    exact List.getElem_mem _
  have hsep : a.max_x < b.min_x := by
    have := List.chain'_iff_get.mp hc k (by omega)
    rw [List.get_eq_getElem, List.get_eq_getElem] at this
    rw [← ha, ← hb]
    exact this
  have hne : a ≠ b := by
    intro h
    subst h
    have := hw a hamem
    omega
  rcases he with rfl | rfl
  · exact ⟨hamem, hbmem, hne, Or.inl hadj⟩
  · exact ⟨hbmem, hamem, hne.symm, Or.inr hadj⟩

/-- The single-pass, adjacent-rows-only edge set coincides with the edge
set obtained from testing all pairs of distinct entities of the grid. -/
theorem edges_iff (input : List (List Char)) (e : Vertex × Vertex) :
    e ∈ build_adjacency_edges input ↔ e ∈ allPairsEdges input := by
  obtain ⟨a, b⟩ := e
  rw [build_mem, allPairs_mem]
  constructor
  · rintro ⟨y, hy, h | ⟨hy0, h⟩⟩
    · have hsound := rowPass_sound (fun v hv => analyze_line_wf hv)
        (analyze_line_chain _ _) h
      obtain ⟨h1, h2, h3, h4⟩ := hsound
      exact ⟨mem_entities.mpr ⟨y, hy, h1⟩, mem_entities.mpr ⟨y, hy, h2⟩, h3, h4⟩
    · obtain ⟨v, hv, lv, hlv, hadj, he⟩ := crossPass_mem.mp h
      have hvy : v.y = y := lineVerts_y hv
      have hlvy : lv.y = y - 1 := lineVerts_y hlv
      have hne : v ≠ lv := by
        intro h
        rw [h] at hvy
        omega
      have hyprev : y - 1 < input.length := by omega
      have hvE : v ∈ entitiesOfInput input := mem_entities.mpr ⟨y, hy, hv⟩
      have hlvE : lv ∈ entitiesOfInput input :=
        mem_entities.mpr ⟨y - 1, hyprev, hlv⟩
      rcases he with he | he <;> rw [Prod.mk.injEq] at he <;>
        obtain ⟨rfl, rfl⟩ := he
      · exact ⟨hlvE, hvE, hne.symm, Or.inr hadj⟩
      · exact ⟨hvE, hlvE, hne, Or.inl hadj⟩
  · rintro ⟨h1, h2, hne, hadj⟩
    obtain ⟨ya, hya, hva⟩ := mem_entities.mp h1
    obtain ⟨yb, hyb, hvb⟩ := mem_entities.mp h2
    have hay : a.y = ya := lineVerts_y hva
    have hby : b.y = yb := lineVerts_y hvb
    have hwa : a.min_x ≤ a.max_x := entities_wf h1
    have hwb : b.min_x ≤ b.max_x := entities_wf h2
    have hrow : a.y ≤ b.y + 1 ∧ b.y ≤ a.y + 1 := by
      rcases hadj with h | h
      · have := (is_adjacent_iff _ _).mp h
        omega
      · have := (is_adjacent_iff _ _).mp h
        omega
    rcases Nat.lt_trichotomy ya yb with hlt | heq | hgt
    · have hyb1 : yb = ya + 1 := by omega
      refine ⟨yb, hyb, Or.inr ⟨by omega, ?_⟩⟩
      apply crossPass_mem.mpr
      have hadj' : b.is_adjacent_to a = true := by
        rcases hadj with h | h
        · rw [is_adjacent_symm hwb hwa]
          exact h
        · exact h
      refine ⟨b, hvb, a, ?_, hadj', Or.inl rfl⟩
      rw [show yb - 1 = ya by omega]
      exact hva
    · subst heq
      refine ⟨ya, hya, Or.inl ?_⟩
      exact (same_row_edge (fun v hv => analyze_line_wf hv)
        (analyze_line_chain _ _) hva hvb hne hadj).1
    · have hya1 : ya = yb + 1 := by omega
      refine ⟨ya, hya, Or.inr ⟨by omega, ?_⟩⟩
      apply crossPass_mem.mpr
      have hadj' : a.is_adjacent_to b = true := by
        rcases hadj with h | h
        · exact h
        · rw [is_adjacent_symm hwa hwb]
          exact h
      refine ⟨a, hva, b, ?_, hadj', Or.inr rfl⟩
      rw [show ya - 1 = yb by omega]
      exact hvb

/-! ### The built map: keys and adjacency sets -/

theorem mem_adjSet {input : List (List Char)} {v w : Vertex} :
    w ∈ adjSet input v ↔ (v, w) ∈ build_adjacency_edges input :=
  mem_adjOf

theorem adjSet_eq_neighborsAll (input : List (List Char)) (v : Vertex) :
    adjSet input v = neighborsAll input v := by
  unfold adjSet neighborsAll
  apply Finset.ext
  intro w
  rw [mem_adjOf, mem_adjOf, edges_iff]

theorem mem_mapKeys {input : List (List Char)} {v : Vertex} :
    v ∈ mapKeys input ↔ ∃ w, (v, w) ∈ build_adjacency_edges input := by
  unfold mapKeys
  simp only [List.mem_toFinset, List.mem_map]
  constructor
  · rintro ⟨⟨x1, x2⟩, hmem, rfl⟩
    exact ⟨x2, hmem⟩
  · rintro ⟨w, hw⟩
    exact ⟨(v, w), hw, rfl⟩

theorem edge_ends {input : List (List Char)} {v w : Vertex}
    (h : (v, w) ∈ build_adjacency_edges input) :
    v ∈ entitiesOfInput input ∧ w ∈ entitiesOfInput input ∧ v ≠ w ∧
      (v.is_adjacent_to w ∨ w.is_adjacent_to v) :=
  allPairs_mem.mp ((edges_iff input (v, w)).mp h)

theorem mapKeys_subset (input : List (List Char)) :
    mapKeys input ⊆ (entitiesOfInput input).toFinset := by
  intro v hv
  obtain ⟨w, hw⟩ := mem_mapKeys.mp hv
  rw [List.mem_toFinset]
  exact (edge_ends hw).1

theorem adjSet_eq_empty_of_not_key {input : List (List Char)} {v : Vertex}
    (h : v ∉ mapKeys input) : adjSet input v = ∅ := by
  rw [Finset.eq_empty_iff_forall_not_mem]
  intro w hw
  exact h (mem_mapKeys.mpr ⟨w, mem_adjSet.mp hw⟩)

theorem mem_mapKeys_iff_nonempty {input : List (List Char)} {v : Vertex} :
    v ∈ mapKeys input ↔ (adjSet input v).Nonempty := by
  constructor
  · rintro hv
    obtain ⟨w, hw⟩ := mem_mapKeys.mp hv
    exact ⟨w, mem_adjSet.mpr hw⟩
  · rintro ⟨w, hw⟩
    exact mem_mapKeys.mpr ⟨w, mem_adjSet.mp hw⟩

theorem mem_mapKeys_iff_neighbor (input : List (List Char)) (v : Vertex) :
    v ∈ mapKeys input ↔
      v ∈ entitiesOfInput input ∧ ∃ w ∈ entitiesOfInput input, w ≠ v ∧
        (v.is_adjacent_to w ∨ w.is_adjacent_to v) := by
  rw [mem_mapKeys]
  constructor
  · rintro ⟨w, hw⟩
    obtain ⟨h1, h2, h3, h4⟩ := edge_ends hw
    exact ⟨h1, w, h2, h3.symm, h4⟩
  · rintro ⟨hv, w, hw, hne, hadj⟩
    exact ⟨w, (edges_iff _ _).mpr (allPairs_mem.mpr ⟨hv, hw, hne.symm, hadj⟩)⟩

/-! ### Multiset helpers -/

theorem multiset_filterMap_add (f : Vertex → Option Nat)
    (s t : Multiset Vertex) :
    Multiset.filterMap f (s + t) =
      Multiset.filterMap f s + Multiset.filterMap f t := by
  refine Quotient.inductionOn₂ s t ?_
  intro ls lt
  show Multiset.filterMap f (↑(ls ++ lt)) = _
  rw [Multiset.filterMap_coe]
  show (↑((ls ++ lt).filterMap f) : Multiset Nat) =
    Multiset.filterMap f ↑ls + Multiset.filterMap f ↑lt
  rw [Multiset.filterMap_coe, Multiset.filterMap_coe, List.filterMap_append,
    Multiset.coe_add]

theorem multiset_filterMap_eq_zero {f : Vertex → Option Nat}
    {s : Multiset Vertex} (h : ∀ v ∈ s, f v = none) :
    Multiset.filterMap f s = 0 := by
  revert h
  refine Quotient.inductionOn s ?_
  intro l h
  show Multiset.filterMap f ↑l = 0
  rw [Multiset.filterMap_coe]
  rw [Multiset.coe_eq_zero, List.filterMap_eq_nil_iff]
  intro a ha
  exact h a ha

/-- Restricting a `filterMap` over a finset to a subset on whose complement
the function vanishes does not change the result. -/
theorem filterMap_subset_eq {s t : Finset Vertex} (hsub : s ⊆ t)
    (f : Vertex → Option Nat) (hf : ∀ v ∈ t, v ∉ s → f v = none) :
    Multiset.filterMap f t.val = Multiset.filterMap f s.val := by
  have hdisj : Disjoint (t \ s) s := Finset.sdiff_disjoint
  have hval : t.val = (t \ s).val + s.val := by
    calc t.val = (t \ s ∪ s).val := by rw [Finset.sdiff_union_of_subset hsub]
      _ = ((t \ s).disjUnion s hdisj).val := by rw [Finset.disjUnion_eq_union]
      _ = (t \ s).val + s.val := rfl
  rw [hval, multiset_filterMap_add, multiset_filterMap_eq_zero, zero_add]
  intro v hv
  rw [Finset.mem_val, Finset.mem_sdiff] at hv
  exact hf v hv.1 hv.2

theorem entities_val (input : List (List Char)) :
    (entitiesOfInput input : Multiset Vertex) =
      (entitiesOfInput input).toFinset.val := by
  have h : (↑(entitiesOfInput input) : Multiset Vertex).dedup =
      (↑(entitiesOfInput input) : Multiset Vertex) :=
    Multiset.dedup_eq_self.mpr (Multiset.coe_nodup.mpr (entities_nodup input))
  show (↑(entitiesOfInput input) : Multiset Vertex) =
    (Multiset.toFinset (↑(entitiesOfInput input) : Multiset Vertex)).val
  rw [Multiset.toFinset_val, h]

/-! ### The two queries, over the map and over all entities -/

theorem pnContribution_eq_spec (input : List (List Char)) (v : Vertex) :
    specPnContribution input v = pnContribution input v := by
  unfold pnContribution specPnContribution
  rw [adjSet_eq_neighborsAll]

theorem gearContribution_eq_spec (input : List (List Char)) (v : Vertex) :
    specGearContribution input v = gearContribution input v := by
  unfold gearContribution specGearContribution
  rw [adjSet_eq_neighborsAll]

theorem pnContribution_not_key {input : List (List Char)} {v : Vertex}
    (hnk : v ∉ mapKeys input) : pnContribution input v = none := by
  unfold pnContribution
  cases hd : v.data with
  | Number n =>
    rw [adjSet_eq_empty_of_not_key hnk]
    simp
  | Symbol c => rfl

theorem gearContribution_not_key {input : List (List Char)} {v : Vertex}
    (hnk : v ∉ mapKeys input) : gearContribution input v = none := by
  unfold gearContribution
  cases hd : v.data with
  | Number n => rfl
  | Symbol c =>
    rw [adjSet_eq_empty_of_not_key hnk]
    simp

theorem part_numbers_eq_spec (input : List (List Char)) :
    part_numbers input = specPartNumbers input := by
  unfold part_numbers specPartNumbers
  rw [funext (pnContribution_eq_spec input), entities_val]
  symm
  apply filterMap_subset_eq (mapKeys_subset input)
  intro v _ hnk
  exact pnContribution_not_key hnk

theorem gear_ratios_eq_spec (input : List (List Char)) :
    gear_ratios input = specGearRatios input := by
  unfold gear_ratios specGearRatios
  rw [funext (gearContribution_eq_spec input), entities_val]
  symm
  apply filterMap_subset_eq (mapKeys_subset input)
  intro v _ hnk
  exact gearContribution_not_key hnk

/-! ### Inverting the extractor on Number entities -/

theorem tokVertex_digit_small {y : Nat} {t : Nat × List Char} (hne : t.2 ≠ [])
    (hd : ∀ c ∈ t.2, c.isDigit) (hv : digitsVal t.2 < 2 ^ 32) :
    tokVertex y t = Vertex.number (digitsVal t.2) y t.1 := by
  unfold tokVertex
  rw [rustParseU32_digits hne hd, if_pos hv]

theorem tokVertex_digit_overflow {y : Nat} {t : Nat × List Char}
    (hne : t.2 ≠ []) (hd : ∀ c ∈ t.2, c.isDigit)
    (hv : 2 ^ 32 ≤ digitsVal t.2) :
    tokVertex y t = Vertex.symbol (t.2.headD ' ') y t.1 := by
  unfold tokVertex
  rw [rustParseU32_digits hne hd, if_neg (by omega)]

/-- Every Number entity of a line comes from an all-digit token whose value
it carries; the value fits `u32` and the token is the slice of the line at
the token's start column. -/
theorem analyze_number_inv {line : List Char} {y : Nat} {v : Vertex} {n : Nat}
    (hv : v ∈ analyze_line line y) (hd : v.data = Data.Number n) :
    ∃ t ∈ lineTokens line 0, t.2 ≠ [] ∧ (∀ c ∈ t.2, c.isDigit) ∧
      n = digitsVal t.2 ∧ n < 2 ^ 32 ∧ v = Vertex.number n y t.1 ∧
      (line.drop t.1).take t.2.length = t.2 := by
  obtain ⟨t, ht, rfl⟩ := List.mem_map.mp hv
  obtain ⟨hne, -, hslice, hshape⟩ := lineTokens_sound' ht
  rw [Nat.sub_zero] at hslice
  rcases hshape with hdig | ⟨hlen1, hnd, -⟩
  · unfold tokVertex at hd ⊢
    rw [rustParseU32_digits hne hdig] at hd ⊢
    by_cases hvs : digitsVal t.2 < 2 ^ 32
    · rw [if_pos hvs] at hd ⊢
      have hn : n = digitsVal t.2 := by
        simpa [Vertex.number] using hd.symm
      subst hn
      exact ⟨t, ht, hne, hdig, rfl, hvs, rfl, hslice⟩
    · rw [if_neg hvs] at hd
      simp [Vertex.symbol] at hd
  · exfalso
    obtain ⟨c, hc⟩ := List.length_eq_one.mp hlen1
    unfold tokVertex at hd
    rw [hc] at hd
    rw [rustParseU32_single_nondigit] at hd
    · simp [Vertex.symbol] at hd
    · rw [hc] at hnd
      simpa using hnd

/-! ### Claim theorems -/

/-- C8: for every entity, the halo computed by `adjacent_points` is exactly
the integer rectangle of rows `[y-1, y+1]` and columns `[min-1, max+1]`
intersected with the nonnegative grid: the clamped `Nat` computation never
underflows or wraps, it only shrinks the rectangle at row 0 / column 0. -/
theorem C8_halo_no_underflow (v : Vertex) (p : Nat × Nat) :
    p ∈ v.adjacentPoints ↔
      ((v.min_x : Int) - 1 ≤ (p.1 : Int) ∧ (p.1 : Int) ≤ (v.max_x : Int) + 1 ∧
        (v.y : Int) - 1 ≤ (p.2 : Int) ∧ (p.2 : Int) ≤ (v.y : Int) + 1) := by
  rw [mem_adjacentPoints]
  omega

/-- C5: every built adjacency mapping is symmetric and has no self-loops,
and the geometric test itself is symmetric on (well-formed) entities. -/
theorem C5_adjacency_symmetric_no_self_loops (input : List (List Char)) :
    (∀ a b : Vertex, b ∈ adjSet input a ↔ a ∈ adjSet input b) ∧
    (∀ a : Vertex, a ∉ adjSet input a) ∧
    (∀ u v : Vertex, u.min_x ≤ u.max_x → v.min_x ≤ v.max_x →
      u.is_adjacent_to v = v.is_adjacent_to u) := by
  refine ⟨?_, ?_, fun u v hu hv => is_adjacent_symm hu hv⟩
  · intro a b
    rw [mem_adjSet, mem_adjSet, edges_iff, edges_iff, allPairs_mem,
      allPairs_mem]
    constructor
    · rintro ⟨h1, h2, h3, h4⟩
      exact ⟨h2, h1, h3.symm, h4.symm⟩
    · rintro ⟨h1, h2, h3, h4⟩
      exact ⟨h2, h1, h3.symm, h4.symm⟩
  · intro a ha
    rw [mem_adjSet, edges_iff, allPairs_mem] at ha
    exact ha.2.2.1 rfl

theorem C5_witness :
    ((Vertex.symbol '*' 0 1 ∈ adjSet [String.toList "1*2"] (Vertex.number 1 0 0)) ↔
      (Vertex.number 1 0 0 ∈ adjSet [String.toList "1*2"] (Vertex.symbol '*' 0 1))) ∧
    (Vertex.number 1 0 0 ∉ adjSet [String.toList "1*2"] (Vertex.number 1 0 0)) ∧
    ((Vertex.number 1 0 0).is_adjacent_to (Vertex.symbol '*' 0 1) =
      (Vertex.symbol '*' 0 1).is_adjacent_to (Vertex.number 1 0 0)) := by
  have h := C5_adjacency_symmetric_no_self_loops [String.toList "1*2"]
  exact ⟨h.1 _ _, h.2.1 _, h.2.2 _ _ (by decide) (by decide)⟩

/-- C4: the single-pass build (consecutive entities within a row, each row
against the row directly above only) produces exactly the edges, adjacency
sets and key set of the all-pairs build over the whole grid. -/
theorem C4_single_pass_eq_all_pairs (input : List (List Char)) :
    (∀ e : Vertex × Vertex,
      e ∈ build_adjacency_edges input ↔ e ∈ allPairsEdges input) ∧
    (∀ v : Vertex, adjSet input v = neighborsAll input v) ∧
    mapKeys input = ((allPairsEdges input).map Prod.fst).toFinset := by
  refine ⟨edges_iff input, adjSet_eq_neighborsAll input, ?_⟩
  apply Finset.ext
  intro x
  unfold mapKeys
  simp only [List.mem_toFinset, List.mem_map]
  constructor
  · rintro ⟨e, he, rfl⟩
    exact ⟨e, (edges_iff input e).mp he, rfl⟩
  · rintro ⟨e, he, rfl⟩
    exact ⟨e, (edges_iff input e).mpr he, rfl⟩

/-- C6 counterexample: in the grid `["1.3"]` the within-row edge-building
pass visits the pair of entities `1` and `3` (they are the two consecutive
entities of the row), finds them non-adjacent, and inserts nothing, so the
visited entity `1` is NOT present in the mapping with an empty set — the
mapping has no keys at all. -/
theorem C6_counterexample :
    analyze_line (String.toList "1.3") 0 =
      [Vertex.number 1 0 0, Vertex.number 3 0 2] ∧
    Vertex.number 1 0 0 ∈ entitiesOfInput [String.toList "1.3"] ∧
    build_adjacency_edges [String.toList "1.3"] = [] ∧
    Vertex.number 1 0 0 ∉ mapKeys [String.toList "1.3"] := by
  decide

/-- C6 amended: an extracted entity is a key of the built mapping iff some
other entity of the grid is adjacent to it; symmetric insertion creates
both endpoints' entries, so every key has a nonempty adjacency set, and an
entity with no neighbors is absent from the mapping even when an
edge-building step visits it. -/
theorem C6_keys_iff_neighbor (input : List (List Char)) (v : Vertex) :
    (v ∈ mapKeys input ↔ v ∈ entitiesOfInput input ∧
      ∃ w ∈ entitiesOfInput input, w ≠ v ∧
        (v.is_adjacent_to w ∨ w.is_adjacent_to v)) ∧
    (v ∈ mapKeys input ↔ (adjSet input v).Nonempty) :=
  ⟨mem_mapKeys_iff_neighbor input v, mem_mapKeys_iff_nonempty⟩

/-- C2: `part_numbers` returns (as a multiset — the order of `HashMap`
iteration is not guaranteed) exactly the values of the Number entities of
the grid adjacent to at least one Symbol entity, one entry per entity
occurrence. -/
theorem C2_part_numbers (input : List (List Char)) :
    part_numbers input = specPartNumbers input :=
  part_numbers_eq_spec input

/-- C1 counterexample: in `["1*2", ".#."]` the symbol `*` is a key whose
adjacency set contains exactly two Number entities (`1` and `2`) — plus the
symbol `#` — yet `gear_ratios` emits no product at all, while the claim as
stated demands one product (`claimGearRatios` yields `{2, 2}`: the claim
would even count `#`). -/
theorem C1_counterexample :
    Vertex.symbol '*' 0 1 ∈ mapKeys [String.toList "1*2", String.toList ".#."] ∧
    (Vertex.symbol '*' 0 1).data.isSym = true ∧
    ((adjSet [String.toList "1*2", String.toList ".#."]
      (Vertex.symbol '*' 0 1)).filter fun w => w.data.isNum).card = 2 ∧
    gear_ratios [String.toList "1*2", String.toList ".#."] = 0 ∧
    claimGearRatios [String.toList "1*2", String.toList ".#."] = {2, 2} ∧
    gear_ratios [String.toList "1*2", String.toList ".#."] ≠
      claimGearRatios [String.toList "1*2", String.toList ".#."] := by
  decide

/-- C1 amended: a Symbol entity contributes one product exactly when its
adjacency set has exactly two elements and both are Numbers (a further
Symbol neighbor disqualifies it); the product is taken modulo `2^32`. -/
theorem C1_gear_ratios_amended (input : List (List Char)) :
    gear_ratios input = specGearRatios input :=
  gear_ratios_eq_spec input

/-- C10: a qualifying Symbol's reported gear ratio is the product of its
two Number neighbors' values reduced modulo `2^32` (u32 wrapping): it
equals the mathematical product exactly when that product is below
`2^32`, and differs from it otherwise. -/
theorem C10_gear_product_mod (input : List (List Char)) (v a b : Vertex)
    (n m : Nat) (hkey : v ∈ mapKeys input) (hsym : v.data.isSym = true)
    (hset : adjSet input v = {a, b}) (hne : a ≠ b)
    (ha : a.data = Data.Number n) (hb : b.data = Data.Number m) :
    gearContribution input v = some (n * m % 2 ^ 32) ∧
    (n * m < 2 ^ 32 → gearContribution input v = some (n * m)) ∧
    (2 ^ 32 ≤ n * m → gearContribution input v ≠ some (n * m)) ∧
    (n * m % 2 ^ 32) ∈ gear_ratios input := by
  have hcard : (adjSet input v).card = 2 := by
    rw [hset]
    exact Finset.card_pair hne
  have hall : ∀ w ∈ adjSet input v, w.data.isNum := by
    rw [hset]
    intro w hw
    rcases Finset.mem_insert.mp hw with rfl | hw'
    · rw [ha]
      rfl
    · rw [Finset.mem_singleton.mp hw', hb]
      rfl
  have hprod : ((adjSet input v).prod fun w => w.data.value) = n * m := by
    rw [hset, Finset.prod_pair hne, ha, hb]
    rfl
  have hcontrib : gearContribution input v = some (n * m % 2 ^ 32) := by
    unfold gearContribution
    cases hv : v.data with
    | Number k =>
      rw [hv] at hsym
      simp [Data.isSym] at hsym
    | Symbol c =>
      rw [if_pos ⟨hcard, hall⟩, hprod]
  refine ⟨hcontrib, ?_, ?_, ?_⟩
  · intro hlt
    rw [hcontrib, Nat.mod_eq_of_lt hlt]
  · intro hge hcontr
    rw [hcontrib] at hcontr
    have h1 := Option.some.inj hcontr
    have h2 : n * m % 2 ^ 32 < 2 ^ 32 := Nat.mod_lt _ (by norm_num)
    omega
  · unfold gear_ratios
    rw [Multiset.mem_filterMap]
    exact ⟨v, Finset.mem_val.mpr hkey, hcontrib⟩

theorem C10_witness :
    gearContribution [String.toList "1*2"] (Vertex.symbol '*' 0 1) =
      some (1 * 2 % 2 ^ 32) ∧
    (1 * 2 % 2 ^ 32) ∈ gear_ratios [String.toList "1*2"] := by
  have h := C10_gear_product_mod [String.toList "1*2"] (Vertex.symbol '*' 0 1)
    (Vertex.number 1 0 0) (Vertex.number 2 0 2) 1 2 (by decide) (by decide)
    (by decide) (by decide) (by decide) (by decide)
  exact ⟨h.1, h.2.2.2⟩

/-- C7 counterexample: the line `"4294967296"` is one maximal all-digit run
delimited by the extractor, but its `u32` parse fails (the value is
`2^32`), and instead of being fatal the failure is recovered: the run
becomes the Symbol entity `'4'` at column 0, and no Number entity is
produced. -/
theorem C7_counterexample :
    (0, String.toList "4294967296") ∈
      lineTokens (String.toList "4294967296") 0 ∧
    (∀ c ∈ String.toList "4294967296", c.isDigit) ∧
    analyze_line (String.toList "4294967296") 0 = [Vertex.symbol '4' 0 0] := by
  decide

/-- C7 amended: the parse of a maximal digit run delimited by the extractor
succeeds iff the run's value fits in `u32`, in which case the run yields
the corresponding Number entity; an overflowing run is not fatal but is
silently recovered into a Symbol entity holding the run's first
character. -/
theorem C7_digit_run_parse (line : List Char) (y : Nat)
    (t : Nat × List Char) (ht : t ∈ lineTokens line 0)
    (hd : ∀ c ∈ t.2, c.isDigit) :
    (digitsVal t.2 < 2 ^ 32 →
      Vertex.number (digitsVal t.2) y t.1 ∈ analyze_line line y) ∧
    (2 ^ 32 ≤ digitsVal t.2 →
      Vertex.symbol (t.2.headD ' ') y t.1 ∈ analyze_line line y) := by
  have hne := (lineTokens_sound' ht).1
  constructor
  · intro hv
    exact List.mem_map.mpr ⟨t, ht, tokVertex_digit_small hne hd hv⟩
  · intro hv
    exact List.mem_map.mpr ⟨t, ht, tokVertex_digit_overflow hne hd hv⟩

theorem C7_witness :
    Vertex.number (digitsVal (String.toList "99")) 0 0 ∈
      analyze_line (String.toList "99*") 0 := by
  have h := C7_digit_run_parse (String.toList "99*") 0
    (0, String.toList "99") (by decide) (by decide)
  exact h.1 (by decide)

/-- C3 counterexample: on the line `"007"` the extractor produces a Number
entity whose `max_col` is 0 (computed from the digit count of the value 7),
not the run's end column 2 as the claim states. -/
theorem C3_counterexample :
    analyze_line (String.toList "007") 0 = [Vertex.number 7 0 0] ∧
    (Vertex.number 7 0 0).max_x = 0 ∧
    specAnalyze (String.toList "007") 0 =
      [{ data := Data.Number 7, y := 0, min_x := 0, max_x := 2 }] ∧
    analyze_line (String.toList "007") 0 ≠ specAnalyze (String.toList "007") 0 := by
  decide

/-- C3 amended: the extractor matches the claimed per-token description
whenever every maximal digit run of the line has no leading zero (otherwise
`max_col` shrinks to the value's digit count) and a value below `2^32`
(otherwise the run becomes a Symbol). -/
theorem C3_analyze_line_spec (line : List Char) (y : Nat)
    (hgood : ∀ t ∈ lineTokens line 0, (∀ c ∈ t.2, c.isDigit) →
      (t.2.headD ' ' ≠ '0' ∨ t.2.length = 1) ∧ digitsVal t.2 < 2 ^ 32) :
    analyze_line line y = specAnalyze line y := by
  unfold analyze_line specAnalyze
  apply List.map_congr_left
  intro t ht
  obtain ⟨hne, -, -, hshape⟩ := lineTokens_sound' ht
  rcases hshape with hdig | ⟨hlen1, hnd, -⟩
  · obtain ⟨h0, hlt⟩ := hgood t ht hdig
    rw [tokVertex_digit_small hne hdig hlt]
    unfold specTokVertex
    rw [if_pos ⟨hne, hdig⟩]
    unfold Vertex.number
    rw [digitCount_digitsVal hne hdig h0]
  · obtain ⟨c, hc⟩ := List.length_eq_one.mp hlen1
    unfold tokVertex specTokVertex
    rw [hc] at hnd
    rw [hc]
    rw [rustParseU32_single_nondigit (by simpa using hnd)]
    have hnc : ¬(([c] : List Char) ≠ [] ∧ ∀ x ∈ ([c] : List Char), x.isDigit) := by
      rintro ⟨-, hall⟩
      exact (by simpa using hnd : ¬c.isDigit = true) (hall c (by simp))
    rw [if_neg hnc]

theorem C3_witness :
    analyze_line (String.toList "12*..3") 0 =
      specAnalyze (String.toList "12*..3") 0 := by
  apply C3_analyze_line_spec
  decide

/-- C9 counterexample: the Number entity extracted from `"007"` has value 7
and span `[0, 0]`; re-parsing the grid characters of that span (`"0"`)
yields 0, not the original value — the round-trip fails for digit runs with
leading zeros. -/
theorem C9_counterexample :
    Vertex.number 7 0 0 ∈ analyze_line (String.toList "007") 0 ∧
    (Vertex.number 7 0 0).data = Data.Number 7 ∧
    digitsVal (((String.toList "007").drop (Vertex.number 7 0 0).min_x).take
      ((Vertex.number 7 0 0).max_x - (Vertex.number 7 0 0).min_x + 1)) = 0 ∧
    (0 : Nat) ≠ 7 := by
  decide

/-- C9 amended: every Number entity satisfies `min_x ≤ max_x` and its
value's digit count equals its span width; the round-trip (re-parsing the
line's characters over the span) recovers the value provided the entity's
own originating maximal digit run — any token of the line that extracts to
exactly this entity — has no leading zero.  Other runs of the line are
unconstrained. -/
theorem C9_number_invariants (line : List Char) (y : Nat) (v : Vertex)
    (n : Nat) (hv : v ∈ analyze_line line y) (hd : v.data = Data.Number n) :
    (v.min_x ≤ v.max_x ∧ digitCount n = v.max_x - v.min_x + 1) ∧
    ((∀ t ∈ lineTokens line 0, tokVertex y t = v → (∀ c ∈ t.2, c.isDigit) →
        (t.2.headD ' ' ≠ '0' ∨ t.2.length = 1)) →
      digitsVal ((line.drop v.min_x).take (v.max_x - v.min_x + 1)) = n) := by
  obtain ⟨t, ht, hne, hdig, hn, hlt, hveq, hslice⟩ := analyze_number_inv hv hd
  have hpos := digitCount_pos n
  constructor
  · refine ⟨analyze_line_wf hv, ?_⟩
    rw [hveq]
    unfold Vertex.number
    dsimp only
    omega
  · intro hgood
    have hvtok : tokVertex y t = v := by
      rw [tokVertex_digit_small hne hdig (by rw [← hn]; exact hlt)]
      rw [hveq, hn]
    have h0 := hgood t ht hvtok hdig
    have hlen : digitCount n = t.2.length := by
      rw [hn]
      exact digitCount_digitsVal hne hdig h0
    have hmin : v.min_x = t.1 := by rw [hveq]; rfl
    have hwidth : v.max_x - v.min_x + 1 = t.2.length := by
      rw [hveq]
      unfold Vertex.number
      dsimp only
      omega
    rw [hwidth, hmin, hslice, ← hn]

theorem C9_witness :
    ((Vertex.number 12 0 4).min_x ≤ (Vertex.number 12 0 4).max_x ∧
      digitCount 12 =
        (Vertex.number 12 0 4).max_x - (Vertex.number 12 0 4).min_x + 1) ∧
    digitsVal (((String.toList "007.12").drop (Vertex.number 12 0 4).min_x).take
      ((Vertex.number 12 0 4).max_x - (Vertex.number 12 0 4).min_x + 1)) = 12 := by
  have h := C9_number_invariants (String.toList "007.12") 0
    (Vertex.number 12 0 4) 12 (by decide) (by decide)
  exact ⟨h.1, h.2 (by decide)⟩

end Schematic
